import Mathlib

/-! Verification of `MyParalelReduce` (src/main.cpp).

A shallow embedding of the hand-written chunked reduction of `src/main.cpp`
and of the two combining operations its benchmark driver uses.

Modelling conventions.

* A random-access range `[begin, end)` is a `List α`; an iterator is its
  offset from `begin`, an integer (`next(it, k)` adds `k`,
  `distance(begin, end)` is the length).  Offsets are exact integers, as
  `ptrdiff_t` is for every range that fits in memory.
* `reduce(execution::seq, first, last, init, f)` is `reduce` below, the loop of
  libstdc++ (`std::transform_reduce` in `<numeric>`, reached through
  `pstl/numeric_impl.h`): on random-access iterators it combines four elements
  at a time and folds the rest from the left.
* `int` values are integers checked against the range of `int`: the product
  `i * chunkSize` of line 41 is a `Fault` when it leaves the range (signed
  overflow is undefined), and the conversion of the quotient to `int` on line 34
  is taken modulo `2^32`.  The values of the element type are not bounded.
* The worker threads write pairwise different slots of `sums` and are all
  joined before `sums` is read, so they are run one after another in the order
  of their creation.
* Everything that has no defined result in C++ (an integer division by zero, a
  signed overflow, a read outside the range) and the exception of the `vector`
  constructor are values of `Fault`; the reducer returns `Except Fault α`.
-/

namespace ParallelReduce

/-- Ways in which a call of `MyParalelReduce` ends without a value. -/
inductive Fault where
  /-- The constructor `vector<T> sums(threadsNumber)` with a negative count: the
  count converts to a `size_type` above `max_size()` and `std::length_error` is
  thrown. -/
  | lengthError
  /-- The division `distance(begin, end) / threadsNumber` with
  `threadsNumber == 0`. -/
  | divisionByZero
  /-- The product `i * chunkSize` of two `int`s is outside the range of `int`. -/
  | signedOverflow
  /-- A worker reads an element outside `[begin, end)` or writes a slot outside
  `sums`. -/
  | outOfRange
  deriving DecidableEq, Repr

/-- The largest `int`. -/
def INT_MAX : Int := 2147483647

/-- The smallest `int`. -/
def INT_MIN : Int := -2147483648

/-- The conversion of a `ptrdiff_t` value to `int`: the value of the `int`
range congruent to it modulo `2^32`. -/
def toInt (x : Int) : Int :=
  (x + 2147483648) % 4294967296 - 2147483648

/-- The loop of `std::transform_reduce` that `reduce(execution::seq, ...)` runs
on random-access iterators: while at least four elements are left,
`init = f init (f (f first[0] first[1]) (f first[2] first[3]))`; then the
remaining elements are combined one by one, `init = f init *first`. -/
def reduce (f : α → α → α) : α → List α → α
  | init, a :: b :: c :: d :: rest => reduce f (f init (f (f a b) (f c d))) rest
  | init, rest => rest.foldl f init

/-- One `threads.emplace_back` of the loop: the captured loop index `i` (the
slot of `sums` the worker writes) and the captured iterators `chunkStart`,
`chunkEnd`, as offsets from `begin`. -/
structure Worker where
  slot : Int
  chunkStart : Int
  chunkEnd : Int
  deriving DecidableEq, Repr

/-- The `for` loop of lines 39-51, for a range of length `len`.  The first
numeric argument is the number of iterations still allowed by the loop
condition (`threadsNumber - i`), the second is `i`.  The result lists the
workers created, in creation order. -/
def spawnLoop (len chunkSize threadsNumber : Int) : Nat → Int → Except Fault (List Worker)
  | 0, _ => .ok []
  | remaining + 1, i =>
    let offset := i * chunkSize
    if offset < INT_MIN ∨ INT_MAX < offset then .error .signedOverflow
    else
      let chunkStart := offset
      if chunkStart ≥ len then .ok []
      else
        let chunkEnd := chunkStart + chunkSize
        let chunkEnd := if i = threadsNumber - 1 then len else chunkEnd
        match spawnLoop len chunkSize threadsNumber remaining (i + 1) with
        | .error e => .error e
        | .ok threads => .ok (⟨i, chunkStart, chunkEnd⟩ :: threads)

/-- The elements of `[chunkStart, chunkEnd)`. -/
def chunkView (xs : List α) (w : Worker) : List α :=
  (xs.drop w.chunkStart.toNat).take (w.chunkEnd - w.chunkStart).toNat

/-- The worker `w` reads index `j`. -/
def Worker.covers (w : Worker) (j : Nat) : Bool :=
  decide (w.chunkStart ≤ j ∧ j < w.chunkEnd)

/-- The body of a worker, line 48:
`reduce(execution::seq, next(chunkStart), chunkEnd, *chunkStart, f)`.
It reads `*chunkStart` and then `[chunkStart + 1, chunkEnd)`. -/
def chunkReduce (xs : List α) (f : α → α → α) (w : Worker) : Except Fault α :=
  if w.chunkStart < 0 then .error .outOfRange
  else
    match xs[w.chunkStart.toNat]? with
    | none => .error .outOfRange
    | some first =>
      if w.chunkStart + 1 ≤ w.chunkEnd ∧ w.chunkEnd ≤ xs.length then
        .ok (reduce f first
          ((xs.drop (w.chunkStart + 1).toNat).take (w.chunkEnd - (w.chunkStart + 1)).toNat))
      else .error .outOfRange

/-- Runs the workers: each stores its reduction in `sums[slot]`. -/
def runThreads (xs : List α) (f : α → α → α) : List Worker → List α → Except Fault (List α)
  | [], sums => .ok sums
  | w :: ws, sums =>
    match chunkReduce xs f w with
    | .error e => .error e
    | .ok v =>
      if 0 ≤ w.slot ∧ w.slot < sums.length then runThreads xs f ws (sums.set w.slot.toNat v)
      else .error .outOfRange

/-- What a call of `MyParalelReduce` did: the workers it created, the counter
`threadsCreated`, the vector `sums` after `sums.resize(threadsCreated)` and the
joins, and the value returned.  The counter is incremented in the iterations
that emplace a worker and in no other (lines 47-50), so it is the number of
workers.  On the `threadsNumber == 1` path neither `threads` nor `sums` exists,
and both are empty here. -/
structure Run (α : Type) where
  threads : List Worker
  threadsCreated : Nat
  sums : List α
  result : α

/-- The function `MyParalelReduce` of lines 25-57, with its local state kept.
`default` is the value-initialised `T` the slots of `sums` start with. -/
def MyParalelReduceRun {α : Type} [Inhabited α] (xs : List α) (initialSum : α)
    (f : α → α → α) (threadsNumber : Int) : Except Fault (Run α) :=
  if threadsNumber = 1 then
    .ok { threads := [], threadsCreated := 0, sums := [], result := reduce f initialSum xs }
  else if threadsNumber < 0 then
    -- line 33: `vector<T> sums(threadsNumber)`
    .error .lengthError
  else if threadsNumber = 0 then
    -- line 34: `distance(begin, end) / threadsNumber`
    .error .divisionByZero
  else
    let sums : List α := List.replicate threadsNumber.toNat default
    let chunkSize := toInt (Int.tdiv xs.length threadsNumber)
    let chunkSize := if chunkSize < 1 then 1 else chunkSize
    match spawnLoop xs.length chunkSize threadsNumber threadsNumber.toNat 0 with
    | .error e => .error e
    | .ok threads =>
      let threadsCreated := threads.length
      match runThreads xs f threads sums with
      | .error e => .error e
      | .ok sums =>
        let sums := sums.take threadsCreated
        .ok { threads := threads, threadsCreated := threadsCreated, sums := sums,
              result := reduce f initialSum sums }

/-- The value `MyParalelReduce` returns. -/
def MyParalelReduce {α : Type} [Inhabited α] (xs : List α) (initialSum : α)
    (f : α → α → α) (threadsNumber : Int) : Except Fault α :=
  match MyParalelReduceRun xs initialSum f threadsNumber with
  | .error e => .error e
  | .ok r => .ok r.result

/-- The lambda `f` of lines 66-67. -/
def f (a b : Int) : Int := a + b

/-- The lambda `heavyOp` of lines 92-98; `%` on `int` truncates towards zero. -/
def heavyOp (a b : Int) : Int :=
  let temp := (List.range 5).foldl (fun temp i => temp + Int.tmod (a * i + b) 1000000) 0
  a + b + temp

/-- Formal applications of a combining operation: `leaf a` is the value `a`,
`node l r` is one application of the operation to `l` and `r`.  Reducing a
sequence of leaves with `node` records every application the reducer makes. -/
inductive OpTree (α : Type) where
  | leaf : α → OpTree α
  | node : OpTree α → OpTree α → OpTree α
  deriving DecidableEq, Repr

instance [Inhabited α] : Inhabited (OpTree α) := ⟨.leaf default⟩

/-- The number of applications recorded in a tree. -/
def OpTree.applications {α : Type} : OpTree α → Nat
  | .leaf _ => 0
  | .node l r => l.applications + r.applications + 1

/-- The value of a tree when `node` is read as `f`. -/
def OpTree.value {α : Type} (f : α → α → α) : OpTree α → α
  | .leaf a => a
  | .node l r => f (l.value f) (r.value f)

/-! Auxiliary definitions, used in the proofs only: the chunks in natural-number
offsets.  `spawnLoop_eq` shows that the loop of the source creates exactly these
chunks when the length of the range is at most `INT_MAX`. -/

/-- A chunk in natural-number offsets, with the index of its slot. -/
structure Span where
  slot : Nat
  chunkStart : Nat
  chunkEnd : Nat
  deriving DecidableEq, Repr

/-- The worker of a chunk. -/
def Span.toWorker (s : Span) : Worker :=
  ⟨s.slot, s.chunkStart, s.chunkEnd⟩

/-- The chunks of the loop of lines 39-51 when no product leaves the range of
`int`. -/
def spanLoop (len chunkSize threadsNumber : Nat) : Nat → Nat → List Span
  | 0, _ => []
  | remaining + 1, i =>
    let chunkStart := i * chunkSize
    if chunkStart ≥ len then []
    else
      let chunkEnd := chunkStart + chunkSize
      let chunkEnd := if i = threadsNumber - 1 then len else chunkEnd
      ⟨i, chunkStart, chunkEnd⟩ :: spanLoop len chunkSize threadsNumber remaining (i + 1)

/-- The elements of a chunk. -/
def spanView (xs : List α) (s : Span) : List α :=
  (xs.drop s.chunkStart).take (s.chunkEnd - s.chunkStart)

/-- The value a worker stores for the chunk `v`: the reduction of the rest of
the chunk seeded with its first element. -/
def chunkFold [Inhabited α] (f : α → α → α) (v : List α) : α :=
  match v with
  | [] => default
  | first :: rest => reduce f first rest

/-- The chunk size in natural numbers; `chunkSize_eq` shows that lines 34-36
compute this value when the length of the range is at most `INT_MAX`. -/
def chunkSizeOf (len n : Nat) : Nat :=
  if len / n < 1 then 1 else len / n

/-- The chunks of a call with `threadsNumber = n` on a range of length `len`. -/
def spansOf (len n : Nat) : List Span :=
  spanLoop len (chunkSizeOf len n) n n 0

/-! # Proofs -/

/-! ## The loop -/

/-- The size of a chunk: `distance / threadsNumber`, raised to 1 (lines 34-36). -/
theorem chunkSize_facts (len n : Nat) :
    1 ≤ chunkSizeOf len n ∧ (chunkSizeOf len n = 1 ∨ chunkSizeOf len n * n ≤ len) := by
  unfold chunkSizeOf
  have hmul : len / n * n ≤ len := Nat.div_mul_le_self len n
  split
  · exact ⟨le_refl 1, Or.inl rfl⟩
  · exact ⟨by omega, Or.inr hmul⟩

theorem spanLoop_bounds (len c N : Nat) (hc : 1 ≤ c) (hcn : c = 1 ∨ c * N ≤ len) :
    ∀ k i, k + i = N → ∀ w ∈ spanLoop len c N k i,
      i ≤ w.slot ∧ w.slot < N ∧ w.chunkStart = w.slot * c ∧
        w.chunkStart < w.chunkEnd ∧ w.chunkEnd ≤ len ∧
        (w.chunkEnd = w.chunkStart + c ∨ (w.slot = N - 1 ∧ w.chunkEnd = len)) := by
  intro k
  induction k with
  | zero => intro i _ w hw; simp [spanLoop] at hw
  | succ k ih =>
    intro i hki w hw
    simp only [spanLoop] at hw
    split at hw
    · simp at hw
    · rename_i hlt
      rcases List.mem_cons.mp hw with rfl | hw
      · have hstep : (i + 1) * c ≤ len := by
          rcases hcn with h1 | h2
          · subst h1; omega
          · calc (i + 1) * c ≤ N * c := Nat.mul_le_mul_right c (by omega)
              _ = c * N := Nat.mul_comm _ _
              _ ≤ len := h2
        have hexp : (i + 1) * c = i * c + c := by ring
        refine ⟨?_, ?_, ?_, ?_, ?_, ?_⟩ <;> dsimp only
        · exact le_refl _
        · omega
        · split <;> omega
        · split <;> omega
        · split
          · right; exact ⟨by assumption, rfl⟩
          · left; rfl
      · obtain ⟨h1, h2⟩ := ih (i + 1) (by omega) w hw
        exact ⟨by omega, h2⟩

theorem spanLoop_slots (len c N : Nat) :
    ∀ k i, (spanLoop len c N k i).map Span.slot =
      List.range' i (spanLoop len c N k i).length := by
  intro k
  induction k with
  | zero => intro i; simp [spanLoop]
  | succ k ih =>
    intro i
    simp only [spanLoop]
    split
    · simp
    · simp [List.range', ih (i + 1)]

theorem spanLoop_length (len c N : Nat) (hc : 1 ≤ c) :
    ∀ k i, (spanLoop len c N k i).length = min k ((len + c - 1) / c - i) := by
  have key : ∀ i, i * c ≥ len ↔ (len + c - 1) / c ≤ i := by
    intro i
    have h := @Nat.div_lt_iff_lt_mul c (len + c - 1) (i + 1) (by omega)
    have hexp : (i + 1) * c = i * c + c := by ring
    constructor
    · intro hi
      have : (len + c - 1) / c < i + 1 := h.mpr (by omega)
      omega
    · intro hi
      have : len + c - 1 < (i + 1) * c := h.mp (by omega)
      omega
  intro k
  induction k with
  | zero => intro i; simp [spanLoop]
  | succ k ih =>
    intro i
    simp only [spanLoop]
    split
    · rename_i hge
      have := (key i).mp hge
      simp
      omega
    · rename_i hlt
      have : ¬ (len + c - 1) / c ≤ i := fun h => hlt ((key i).mpr h)
      simp only [List.length_cons, ih (i + 1)]
      omega

theorem spanLoop_flatten (xs : List α) (c N : Nat) :
    ∀ k i, k + 1 + i = N →
      ((spanLoop xs.length c N (k + 1) i).map (spanView xs)).flatten = xs.drop (i * c) := by
  intro k
  induction k with
  | zero =>
    intro i hi
    simp only [spanLoop]
    split
    · rename_i hge
      simp [List.drop_eq_nil_of_le hge]
    · have hlast : i = N - 1 := by omega
      simp [hlast, spanView]
  | succ k ih =>
    intro i hi
    rw [spanLoop]
    dsimp only
    split
    · rename_i hge
      simp [List.drop_eq_nil_of_le hge]
    · have hnot : ¬ i = N - 1 := by omega
      rw [List.map_cons, List.flatten_cons, ih (i + 1) (by omega)]
      have hexp : (i + 1) * c = i * c + c := by ring
      simp only [spanView, hnot, if_false, hexp, Nat.add_sub_cancel_left]
      rw [← List.drop_drop]
      exact List.take_append_drop c _

theorem spanLoop_chain (len c N : Nat) :
    ∀ k i, k + i = N → ∀ pred : Span, pred.chunkEnd = i * c →
      List.Chain (fun a b : Span => a.chunkEnd = b.chunkStart) pred
        (spanLoop len c N k i) := by
  intro k
  induction k with
  | zero => intro i _ pred _; simp [spanLoop]
  | succ k ih =>
    intro i hi pred hpred
    simp only [spanLoop]
    split
    · exact List.Chain.nil
    · refine List.Chain.cons hpred ?_
      cases k with
      | zero => simp [spanLoop]
      | succ k =>
        have hnot : ¬ i = N - 1 := by omega
        exact ih (i + 1) (by omega) _ (by simp only [hnot, if_false]; ring)

theorem spanLoop_cover (len c N : Nat) (hc : 1 ≤ c) (hcn : c = 1 ∨ c * N ≤ len) (j : Nat) :
    ∀ k i, k + 1 + i = N → i * c ≤ j → j < len →
      List.countP (fun w : Span => decide (w.chunkStart ≤ j ∧ j < w.chunkEnd))
        (spanLoop len c N (k + 1) i) = 1 := by
  intro k
  induction k with
  | zero =>
    intro i hi hij hj
    have hlast : i = N - 1 := by omega
    have hlt : ¬ i * c ≥ len := by omega
    simp [spanLoop, hlt, ← hlast, hij, hj]
  | succ k ih =>
    intro i hi hij hj
    have hnot : ¬ i = N - 1 := by omega
    have hlt : ¬ i * c ≥ len := by omega
    have hexp : (i + 1) * c = i * c + c := by ring
    rw [spanLoop]
    simp only [hlt, if_false, hnot]
    by_cases hin : j < i * c + c
    · rw [List.countP_cons_of_pos _ _ (by simp [hij, hin])]
      have hzero : List.countP (fun w : Span => decide (w.chunkStart ≤ j ∧ j < w.chunkEnd))
          (spanLoop len c N (k + 1) (i + 1)) = 0 := by
        rw [List.countP_eq_zero]
        intro w hw
        obtain ⟨h1, _, h3, _⟩ := spanLoop_bounds len c N hc hcn (k + 1) (i + 1) (by omega) w hw
        have : (i + 1) * c ≤ w.slot * c := Nat.mul_le_mul_right c h1
        simp only [decide_eq_true_eq, not_and, not_lt]
        intro hle
        omega
      rw [hzero]
    · rw [List.countP_cons_of_neg _ _ (by simp [hin])]
      exact ih (i + 1) (by omega) (by omega) hj

theorem spanView_cons (xs : List α) (w : Span) (h1 : w.chunkStart < w.chunkEnd)
    (h2 : w.chunkEnd ≤ xs.length) :
    spanView xs w =
      xs[w.chunkStart] ::
        (xs.drop (w.chunkStart + 1)).take (w.chunkEnd - (w.chunkStart + 1)) := by
  have hlt : w.chunkStart < xs.length := by omega
  have hsub : w.chunkEnd - w.chunkStart = (w.chunkEnd - (w.chunkStart + 1)) + 1 := by omega
  rw [spanView, List.drop_eq_getElem_cons hlt, hsub, List.take_succ_cons]

theorem spansOf_bounds (len n : Nat) :
    ∀ w ∈ spansOf len n, w.slot < n ∧ w.chunkStart < w.chunkEnd ∧ w.chunkEnd ≤ len := by
  intro w hw
  obtain ⟨hc, hcn⟩ := chunkSize_facts len n
  obtain ⟨_, h2, _, h4, h5, _⟩ :=
    spanLoop_bounds len (chunkSizeOf len n) n hc hcn n 0 (by omega) w hw
  exact ⟨h2, h4, h5⟩

theorem spansOf_length_le (len n : Nat) : (spansOf len n).length ≤ n := by
  obtain ⟨hc, _⟩ := chunkSize_facts len n
  rw [spansOf, spanLoop_length len _ n hc]
  exact Nat.min_le_left _ _

theorem spansOf_flatten (xs : List α) (n : Nat) (hn : 1 ≤ n) :
    ((spansOf xs.length n).map (spanView xs)).flatten = xs := by
  obtain ⟨k, rfl⟩ : ∃ k, n = k + 1 := ⟨n - 1, by omega⟩
  have h := spanLoop_flatten xs (chunkSizeOf xs.length (k + 1)) (k + 1) k 0 (by omega)
  simpa [spansOf] using h

theorem spansOf_nil (n : Nat) : spansOf 0 n = [] := by
  cases n <;> simp [spansOf, spanLoop]

theorem spansOf_one (n : Nat) (hn : 2 ≤ n) : spansOf 1 n = [⟨0, 0, 1⟩] := by
  obtain ⟨k, rfl⟩ : ∃ k, n = k + 2 := ⟨n - 2, by omega⟩
  have hdiv : 1 / (k + 2) = 0 := Nat.div_eq_of_lt (by omega)
  simp [spansOf, chunkSizeOf, hdiv, spanLoop]


/-! ## Shape of the partition -/

theorem spanLoop_last (len c N : Nat) (hc : 1 ≤ c) (hcn : c = 1 ∨ c * N ≤ len) :
    ∀ k i, k + 1 + i = N → i * c < len →
      ∃ w, (spanLoop len c N (k + 1) i).getLast? = some w ∧ w.chunkEnd = len := by
  intro k
  induction k with
  | zero =>
    intro i hi hlt
    have hlast : i = N - 1 := by omega
    have hnot : ¬ i * c ≥ len := by omega
    exact ⟨⟨i, i * c, len⟩, by simp [spanLoop, hnot, ← hlast], rfl⟩
  | succ k ih =>
    intro i hi hlt
    have hnl : ¬ i = N - 1 := by omega
    have hnot : ¬ i * c ≥ len := by omega
    have hexp : (i + 1) * c = i * c + c := by ring
    rw [spanLoop]
    simp only [hnot, if_false, hnl, List.getLast?_cons]
    by_cases hnext : (i + 1) * c < len
    · obtain ⟨w, hw, hend⟩ := ih (i + 1) (by omega) hnext
      exact ⟨w, by rw [hw]; rfl, hend⟩
    · have hbreak : spanLoop len c N (k + 1) (i + 1) = [] := by
        rw [spanLoop]; simp only [ge_iff_le]; rw [if_pos (by omega)]
      have hstep : (i + 1) * c ≤ len := by
        rcases hcn with h1 | h2
        · subst h1; omega
        · calc (i + 1) * c ≤ N * c := Nat.mul_le_mul_right c (by omega)
            _ = c * N := Nat.mul_comm _ _
            _ ≤ len := h2
      refine ⟨⟨i, i * c, i * c + c⟩, by rw [hbreak]; rfl, ?_⟩
      show i * c + c = len
      omega

theorem spansOf_pairwise (len n : Nat) :
    (spansOf len n).Pairwise (fun a b => a.chunkEnd ≤ b.chunkStart) := by
  obtain ⟨hc, hcn⟩ := chunkSize_facts len n
  have hslots := spanLoop_slots len (chunkSizeOf len n) n n 0
  have hlt : ((spansOf len n).map Span.slot).Pairwise (· < ·) := by
    rw [spansOf, hslots]; exact List.pairwise_lt_range' 0 _
  rw [List.pairwise_map] at hlt
  refine hlt.imp_of_mem ?_
  intro a b ha hb hab
  obtain ⟨_, ha2, ha3, _, _, ha6⟩ :=
    spanLoop_bounds len (chunkSizeOf len n) n hc hcn n 0 (by omega) a ha
  obtain ⟨_, hb2, hb3, _⟩ :=
    spanLoop_bounds len (chunkSizeOf len n) n hc hcn n 0 (by omega) b hb
  have hmul : (a.slot + 1) * chunkSizeOf len n ≤ b.slot * chunkSizeOf len n :=
    Nat.mul_le_mul_right _ hab
  have hexp : (a.slot + 1) * chunkSizeOf len n = a.slot * chunkSizeOf len n + chunkSizeOf len n := by
    ring
  rcases ha6 with h | ⟨h, _⟩
  · omega
  · omega

theorem chunkSizeOf_eq_max (len n : Nat) : chunkSizeOf len n = max 1 (len / n) := by
  unfold chunkSizeOf
  split <;> omega

theorem spansOf_length (len n : Nat) :
    (spansOf len n).length =
      min n ((len + chunkSizeOf len n - 1) / chunkSizeOf len n) := by
  obtain ⟨hc, _⟩ := chunkSize_facts len n
  rw [spansOf, spanLoop_length len _ n hc]
  rfl

/-- The integer expression `(a + b - 1) / b` is the ceiling of the quotient
`a / b`. -/
theorem ceil_div_eq (a b : Nat) (hb : 1 ≤ b) : ⌈(a : ℚ) / (b : ℚ)⌉₊ = (a + b - 1) / b := by
  have hbq : (0 : ℚ) < (b : ℚ) := by exact_mod_cast hb
  apply eq_of_forall_ge_iff
  intro m
  rw [Nat.ceil_le, div_le_iff₀ hbq]
  have h := @Nat.div_lt_iff_lt_mul b (a + b - 1) (m + 1) (by omega)
  have hexp : (m + 1) * b = m * b + b := by ring
  constructor
  · intro hle
    have hle' : a ≤ m * b := by exact_mod_cast hle
    have : (a + b - 1) / b < m + 1 := h.mpr (by omega)
    omega
  · intro hle
    have : a + b - 1 < (m + 1) * b := h.mp (by omega)
    have hle' : a ≤ m * b := by omega
    exact_mod_cast hle'

theorem heavyOp_eq (a b : Int) :
    heavyOp a b = a + b + (Int.tmod b 1000000 + Int.tmod (a + b) 1000000 +
      Int.tmod (a * 2 + b) 1000000 + Int.tmod (a * 3 + b) 1000000 +
      Int.tmod (a * 4 + b) 1000000) := by
  simp [heavyOp, List.range_succ]

/-- Every product `i * chunkSize` the loop computes, up to and including the
one of the iteration that leaves the loop, is at most the length. -/
theorem spansOf_offsets (len n i : Nat) (hi : i ≤ (spansOf len n).length) :
    i * chunkSizeOf len n ≤ len := by
  obtain ⟨hc, hcn⟩ := chunkSize_facts len n
  rw [spansOf_length] at hi
  rcases hcn with h1 | h2
  · rw [h1] at hi ⊢
    have : i ≤ (len + 1 - 1) / 1 := le_trans hi (Nat.min_le_right _ _)
    simp at this
    omega
  · calc i * chunkSizeOf len n ≤ n * chunkSizeOf len n :=
        Nat.mul_le_mul_right _ (le_trans hi (Nat.min_le_left _ _))
      _ = chunkSizeOf len n * n := Nat.mul_comm _ _
      _ ≤ len := h2

/-! ## The library reduction -/

theorem reduce_four (f : α → α → α) (init a b c d : α) (rest : List α) :
    reduce f init (a :: b :: c :: d :: rest) = reduce f (f init (f (f a b) (f c d))) rest := by
  rw [reduce]

theorem reduce_short (f : α → α → α) (init : α) (xs : List α) (h : xs.length < 4) :
    reduce f init xs = xs.foldl f init := by
  match xs, h with
  | [], _ => rfl
  | [_], _ => rfl
  | [_, _], _ => rfl
  | [_, _, _], _ => rfl
  | _ :: _ :: _ :: _ :: _, h => simp at h; omega

theorem reduce_nil (f : α → α → α) (init : α) : reduce f init [] = init := rfl

theorem reduce_singleton (f : α → α → α) (init a : α) : reduce f init [a] = f init a := rfl

/-- For an associative operation the grouped loop returns the left fold. -/
theorem reduce_eq_foldl (f : α → α → α) (hassoc : ∀ a b c, f (f a b) c = f a (f b c)) :
    ∀ (xs : List α) (init : α), reduce f init xs = xs.foldl f init
  | a :: b :: c :: d :: rest, init => by
    rw [reduce_four, reduce_eq_foldl f hassoc rest]
    simp only [List.foldl_cons, hassoc]
  | [], _ => rfl
  | [_], _ => rfl
  | [_, _], _ => rfl
  | [_, _, _], _ => rfl

theorem value_reduce (f : α → α → α) :
    ∀ (es : List (OpTree α)) (e : OpTree α),
      (reduce OpTree.node e es).value f = reduce f (e.value f) (es.map (OpTree.value f))
  | a :: b :: c :: d :: rest, e => by
    rw [reduce_four, value_reduce f rest]
    simp only [List.map_cons, reduce_four, OpTree.value]
  | [], _ => rfl
  | [_], _ => rfl
  | [_, _], _ => rfl
  | [_, _, _], _ => rfl

/-! ## The loop of the source on ranges of at most `INT_MAX` elements -/

theorem toInt_of_range (x : Int) (h0 : 0 ≤ x) (h1 : x ≤ 2147483647) : toInt x = x := by
  unfold toInt
  omega

theorem chunkSize_eq (len n : Nat) (hlen : len ≤ 2147483647) :
    (if toInt (Int.tdiv (len : Int) (n : Int)) < 1 then 1
      else toInt (Int.tdiv (len : Int) (n : Int))) = (chunkSizeOf len n : Int) := by
  have hdiv : Int.tdiv (len : Int) (n : Int) = ((len / n : Nat) : Int) := by
    rw [Int.tdiv_eq_ediv (Int.ofNat_nonneg len) (Int.ofNat_nonneg n)]
    norm_cast
  have hle : len / n ≤ len := Nat.div_le_self len n
  rw [hdiv, toInt_of_range _ (Int.ofNat_nonneg _) (by omega)]
  unfold chunkSizeOf
  split <;> split <;> omega

theorem spawnLoop_eq (len c N : Nat) (hlen : len ≤ 2147483647) (hc : 1 ≤ c)
    (hcn : c = 1 ∨ c * N ≤ len) :
    ∀ k i, k + i = N → i * c ≤ len →
      spawnLoop (len : Int) (c : Int) (N : Int) k (i : Int) =
        .ok ((spanLoop len c N k i).map Span.toWorker) := by
  intro k
  induction k with
  | zero => intro i _ _; rfl
  | succ k ih =>
    intro i hi hle
    have hprod : (i : Int) * (c : Int) = ((i * c : Nat) : Int) := by push_cast; rfl
    have hrange : ¬ ((i : Int) * (c : Int) < INT_MIN ∨ INT_MAX < (i : Int) * (c : Int)) := by
      rw [hprod]; unfold INT_MIN INT_MAX; omega
    rw [spawnLoop, spanLoop]
    simp only [hrange, if_false]
    by_cases hbreak : i * c ≥ len
    · have hb : (i : Int) * (c : Int) ≥ (len : Int) := by rw [hprod]; exact_mod_cast hbreak
      simp [hb, hbreak]
    · have hb : ¬ (i : Int) * (c : Int) ≥ (len : Int) := by rw [hprod]; omega
      have hstep : (i + 1) * c ≤ len := by
        rcases hcn with h1 | h2
        · subst h1; omega
        · calc (i + 1) * c ≤ N * c := Nat.mul_le_mul_right c (by omega)
            _ = c * N := Nat.mul_comm _ _
            _ ≤ len := h2
      have hnext := ih (i + 1) (by omega) hstep
      rw [Nat.cast_add, Nat.cast_one] at hnext
      have hlast : ((i : Int) = (N : Int) - 1) ↔ (i = N - 1) := by omega
      simp only [hb, hbreak, if_false, hnext, List.map_cons, hlast]
      congr 2
      simp only [Span.toWorker]
      split <;> simp

theorem chunkView_toWorker (xs : List α) (s : Span) :
    chunkView xs s.toWorker = spanView xs s := by
  simp only [chunkView, spanView, Span.toWorker, Int.toNat_ofNat]
  congr 1
  omega

theorem chunkReduce_ok [Inhabited α] (xs : List α) (f : α → α → α) (s : Span)
    (h1 : s.chunkStart < s.chunkEnd) (h2 : s.chunkEnd ≤ xs.length) :
    chunkReduce xs f s.toWorker = .ok (chunkFold f (spanView xs s)) := by
  have hlt : s.chunkStart < xs.length := by omega
  have hneg : ¬ ((s.chunkStart : Int) < 0) := by omega
  have hcond : (s.chunkStart : Int) + 1 ≤ (s.chunkEnd : Int) ∧
      (s.chunkEnd : Int) ≤ (xs.length : Int) := by omega
  have e1 : ((s.chunkStart : Int) + 1).toNat = s.chunkStart + 1 := by omega
  have e2 : ((s.chunkEnd : Int) - ((s.chunkStart : Int) + 1)).toNat =
      s.chunkEnd - (s.chunkStart + 1) := by omega
  rw [spanView_cons xs s h1 h2]
  simp only [chunkReduce, Span.toWorker, hneg, if_false, Int.toNat_ofNat,
    List.getElem?_eq_getElem hlt, hcond, and_self, if_true, chunkFold, e1, e2]

theorem runThreads_ok [Inhabited α] (xs : List α) (f : α → α → α) :
    ∀ (ss : List Span) (done rest : List α),
      (∀ s ∈ ss, s.chunkStart < s.chunkEnd ∧ s.chunkEnd ≤ xs.length) →
      ss.map Span.slot = List.range' done.length ss.length →
      ss.length ≤ rest.length →
      runThreads xs f (ss.map Span.toWorker) (done ++ rest) =
        .ok (done ++ ss.map (fun s => chunkFold f (spanView xs s)) ++ rest.drop ss.length) := by
  intro ss
  induction ss with
  | nil => intro done rest _ _ _; simp [runThreads]
  | cons s ss ih =>
    intro done rest hb hs hl
    obtain ⟨hw1, hw2⟩ := hb s (List.mem_cons_self _ _)
    simp only [List.map_cons, List.length_cons, List.range'_succ, List.cons.injEq] at hs
    obtain ⟨hslot, hs⟩ := hs
    cases rest with
    | nil => simp at hl
    | cons r rest =>
      have hlt : 0 ≤ s.toWorker.slot ∧ s.toWorker.slot < ((done ++ r :: rest).length : Int) := by
        simp only [Span.toWorker, List.length_append, List.length_cons]
        omega
      have hnat : s.toWorker.slot.toNat = done.length := by
        simp only [Span.toWorker, Int.toNat_ofNat]; exact hslot
      have hset : (done ++ r :: rest).set done.length (chunkFold f (spanView xs s)) =
          (done ++ [chunkFold f (spanView xs s)]) ++ rest := by
        simp
      simp only [List.map_cons, runThreads, chunkReduce_ok xs f s hw1 hw2, hlt, and_self,
        if_true, hnat, hset]
      rw [ih (done ++ [chunkFold f (spanView xs s)]) rest
        (fun v hv => hb v (List.mem_cons_of_mem _ hv)) (by simpa using hs)
        (by simpa using hl)]
      simp

/-- On the path of lines 32-56, for a range of at most `INT_MAX` elements, the
call returns, and its state is determined by the chunks. -/
theorem run_eq_nat [Inhabited α] (xs : List α) (initialSum : α) (f : α → α → α)
    (N : Nat) (h : 2 ≤ N) (hlen : xs.length ≤ 2147483647) :
    MyParalelReduceRun xs initialSum f (N : Int) =
      .ok { threads := (spansOf xs.length N).map Span.toWorker
            threadsCreated := (spansOf xs.length N).length
            sums := (spansOf xs.length N).map (fun s => chunkFold f (spanView xs s))
            result := reduce f initialSum
              ((spansOf xs.length N).map (fun s => chunkFold f (spanView xs s))) } := by
  have h1 : ¬ (N : Int) = 1 := by omega
  have h2 : ¬ (N : Int) < 0 := by omega
  have h3 : ¬ (N : Int) = 0 := by omega
  obtain ⟨hc, hcn⟩ := chunkSize_facts xs.length N
  have hloop := spawnLoop_eq xs.length (chunkSizeOf xs.length N) N hlen hc hcn N 0
    (by omega) (by omega)
  have hlenle := spansOf_length_le xs.length N
  have hrun := runThreads_ok xs f (spansOf xs.length N) []
    (List.replicate N default)
    (fun s hs => (spansOf_bounds _ _ s hs).2)
    (by simpa using spanLoop_slots _ _ _ _ 0) (by simpa using hlenle)
  simp only [List.nil_append] at hrun
  have hself : ((spansOf xs.length N).map Span.toWorker).length =
      ((spansOf xs.length N).map (fun s => chunkFold f (spanView xs s))).length := by simp
  simp only [MyParalelReduceRun, h1, h2, h3, if_false, chunkSize_eq xs.length N hlen,
    Int.toNat_ofNat]
  rw [Nat.cast_zero] at hloop
  rw [hloop]
  change (match runThreads xs f ((spansOf xs.length N).map Span.toWorker)
      (List.replicate N default) with
    | Except.error e => Except.error e
    | Except.ok sums => _) = _
  rw [hrun]
  change Except.ok
    (Run.mk ((spansOf xs.length N).map Span.toWorker)
      ((spansOf xs.length N).map Span.toWorker).length
      (List.take ((spansOf xs.length N).map Span.toWorker).length _)
      (reduce f initialSum
        (List.take ((spansOf xs.length N).map Span.toWorker).length _))) = _
  rw [hself, List.take_left, ← hself, List.length_map]

theorem run_eq [Inhabited α] (xs : List α) (initialSum : α) (f : α → α → α)
    (threadsNumber : Int) (h : 2 ≤ threadsNumber) (hlen : xs.length ≤ 2147483647) :
    MyParalelReduceRun xs initialSum f threadsNumber =
      .ok { threads := (spansOf xs.length threadsNumber.toNat).map Span.toWorker
            threadsCreated := (spansOf xs.length threadsNumber.toNat).length
            sums := (spansOf xs.length threadsNumber.toNat).map
              (fun s => chunkFold f (spanView xs s))
            result := reduce f initialSum
              ((spansOf xs.length threadsNumber.toNat).map
                (fun s => chunkFold f (spanView xs s))) } := by
  have hcast : ((threadsNumber.toNat : Nat) : Int) = threadsNumber :=
    Int.toNat_of_nonneg (by omega)
  have h := run_eq_nat xs initialSum f threadsNumber.toNat (by omega) hlen
  rwa [hcast] at h

theorem MyParalelReduce_eq [Inhabited α] (xs : List α) (initialSum : α) (f : α → α → α)
    (threadsNumber : Int) (h : 2 ≤ threadsNumber) (hlen : xs.length ≤ 2147483647) :
    MyParalelReduce xs initialSum f threadsNumber =
      .ok (reduce f initialSum ((spansOf xs.length threadsNumber.toNat).map
        (fun s => chunkFold f (spanView xs s)))) := by
  simp only [MyParalelReduce, run_eq xs initialSum f threadsNumber h hlen]

theorem MyParalelReduce_one [Inhabited α] (xs : List α) (initialSum : α) (f : α → α → α) :
    MyParalelReduce xs initialSum f 1 = .ok (reduce f initialSum xs) := by
  simp [MyParalelReduce, MyParalelReduceRun]

theorem run_of_loop_error [Inhabited α] (xs : List α) (initialSum : α) (f : α → α → α)
    (threadsNumber : Int) (e : Fault) (h : 2 ≤ threadsNumber)
    (hloop : spawnLoop xs.length
      (if toInt (Int.tdiv xs.length threadsNumber) < 1 then 1
        else toInt (Int.tdiv xs.length threadsNumber))
      threadsNumber threadsNumber.toNat 0 = .error e) :
    MyParalelReduceRun xs initialSum f threadsNumber = .error e := by
  have h1 : ¬ threadsNumber = 1 := by omega
  have h2 : ¬ threadsNumber < 0 := by omega
  have h3 : ¬ threadsNumber = 0 := by omega
  simp only [MyParalelReduceRun, h1, h2, h3, if_false, hloop]

/-- On a range of 3300000000 elements with three workers the chunk size is
1100000000 and the product `2 * 1100000000` of the third iteration is outside
the range of `int`. -/
theorem run_overflow [Inhabited α] (xs : List α) (initialSum : α) (f : α → α → α)
    (hlen : xs.length = 3300000000) :
    MyParalelReduceRun xs initialSum f 3 = .error .signedOverflow := by
  apply run_of_loop_error xs initialSum f 3 _ (by decide)
  rw [hlen]
  rfl

/-! ## Regrouping a fold of an associative operation -/

theorem spanView_map (g : α → β) (xs : List α) (w : Span) :
    spanView (xs.map g) w = (spanView xs w).map g := by
  simp [spanView, List.map_take, List.map_drop]

theorem value_leaf_comp (f : α → α → α) (xs : List α) :
    (xs.map OpTree.leaf).map (OpTree.value f) = xs := by
  rw [List.map_map]
  have : (OpTree.value f ∘ OpTree.leaf) = (id : α → α) := rfl
  rw [this, List.map_id]

theorem value_chunkFold [Inhabited α] (f : α → α → α) (v : List α) :
    (chunkFold OpTree.node (v.map OpTree.leaf)).value f = chunkFold f v := by
  cases v with
  | nil => rfl
  | cons x rest =>
    simp only [chunkFold, List.map_cons, value_reduce, value_leaf_comp]
    rfl

/-- The tree `MyParalelReduce` builds from the leaves of a sequence has, for
every operation `f`, the value `MyParalelReduce` returns for `f`: the tree is
the record of the applications of `f` in the call. -/
theorem MyParalelReduce_record [Inhabited α] (xs : List α) (initialSum : α) (f : α → α → α)
    (threadsNumber : Int) (hlen : xs.length ≤ 2147483647) :
    MyParalelReduce xs initialSum f threadsNumber =
      match MyParalelReduce (xs.map OpTree.leaf) (OpTree.leaf initialSum) OpTree.node
          threadsNumber with
      | .error e => .error e
      | .ok t => .ok (t.value f) := by
  by_cases h1 : threadsNumber = 1
  · subst h1
    simp only [MyParalelReduce_one, value_reduce, value_leaf_comp]
    rfl
  · by_cases h2 : 2 ≤ threadsNumber
    · have hlen2 : (xs.map OpTree.leaf).length ≤ 2147483647 := by simpa using hlen
      simp only [MyParalelReduce_eq _ _ _ threadsNumber h2 hlen,
        MyParalelReduce_eq _ _ _ threadsNumber h2 hlen2, value_reduce, List.map_map,
        List.length_map]
      congr 2
      apply List.map_congr_left
      intro w _
      simp [spanView_map, value_chunkFold]
    · by_cases h3 : threadsNumber < 0
      · simp [MyParalelReduce, MyParalelReduceRun, h1, h3]
      · have h4 : threadsNumber = 0 := by omega
        subst h4
        simp [MyParalelReduce, MyParalelReduceRun]

/-! ## The workers of the chunks -/

theorem threads_flatten (xs : List α) (n : Nat) (hn : 1 ≤ n) :
    (((spansOf xs.length n).map Span.toWorker).map (chunkView xs)).flatten = xs := by
  rw [List.map_map]
  have : (chunkView xs ∘ Span.toWorker) = spanView xs := by
    funext s; exact chunkView_toWorker xs s
  rw [this]
  exact spansOf_flatten xs n hn

theorem threads_bounds (len n : Nat) :
    ∀ w ∈ (spansOf len n).map Span.toWorker,
      0 ≤ w.slot ∧ w.slot < n ∧ 0 ≤ w.chunkStart ∧ w.chunkStart < w.chunkEnd ∧
        w.chunkEnd ≤ len := by
  intro w hw
  obtain ⟨s, hs, rfl⟩ := List.mem_map.mp hw
  obtain ⟨h1, h2, h3⟩ := spansOf_bounds len n s hs
  simp only [Span.toWorker]
  omega

theorem threads_chain (len n : Nat) :
    List.Chain (fun a b : Worker => a.chunkEnd = b.chunkStart) ⟨0, 0, 0⟩
      ((spansOf len n).map Span.toWorker) := by
  have h := spanLoop_chain len (chunkSizeOf len n) n n 0 (by omega) ⟨0, 0, 0⟩ (by simp)
  have hz : (⟨0, 0, 0⟩ : Worker) = Span.toWorker ⟨0, 0, 0⟩ := rfl
  rw [hz, List.chain_map]
  refine h.imp ?_
  intro a b hab
  simp only [Span.toWorker]
  exact_mod_cast hab

theorem threads_pairwise (len n : Nat) :
    ((spansOf len n).map Span.toWorker).Pairwise (fun a b => a.chunkEnd ≤ b.chunkStart) := by
  rw [List.pairwise_map]
  refine (spansOf_pairwise len n).imp ?_
  intro a b hab
  simp only [Span.toWorker]
  exact_mod_cast hab

theorem threads_cover (len n : Nat) (hn : 1 ≤ n) (j : Nat) (hj : j < len) :
    ((spansOf len n).map Span.toWorker).countP (fun w => w.covers j) = 1 := by
  obtain ⟨hc, hcn⟩ := chunkSize_facts len n
  obtain ⟨k, rfl⟩ : ∃ k, n = k + 1 := ⟨n - 1, by omega⟩
  have h := spanLoop_cover len _ (k + 1) hc hcn j k 0 (by omega) (by omega) hj
  rw [List.countP_map]
  have hfun : ((fun w : Worker => w.covers j) ∘ Span.toWorker) =
      (fun s : Span => decide (s.chunkStart ≤ j ∧ j < s.chunkEnd)) := by
    funext s
    simp only [Function.comp, Worker.covers, Span.toWorker]
    congr 1
    apply propext
    constructor <;> intro h <;> constructor <;> omega
  rw [hfun]
  exact h

theorem threads_last (len n : Nat) (hn : 1 ≤ n) (hlen : 1 ≤ len) :
    ∃ w, ((spansOf len n).map Span.toWorker).getLast? = some w ∧ w.chunkEnd = len := by
  obtain ⟨hc, hcn⟩ := chunkSize_facts len n
  obtain ⟨k, rfl⟩ : ∃ k, n = k + 1 := ⟨n - 1, by omega⟩
  obtain ⟨s, hs, hend⟩ := spanLoop_last len _ (k + 1) hc hcn k 0 (by omega) (by omega)
  refine ⟨s.toWorker, ?_, ?_⟩
  · rw [List.getLast?_map]
    unfold spansOf
    rw [hs]
    rfl
  · simp only [Span.toWorker]
    exact_mod_cast hend

theorem no_run_of_error {α : Type} {x : Except Fault (Run α)} {e : Fault} (h : x = .error e)
    (P : Run α → Prop) : ¬ ∃ r, x = .ok r ∧ P r := by
  rintro ⟨r, hr, _⟩
  rw [h] at hr
  cases hr

/-- C2 as stated fails for an operation that is not associative:
`reduce(execution::seq, ...)` combines four elements at a time, so with one
worker `heavyOp` on `[1, 2, 3, 4]` from `0` gives
`heavyOp(0, heavyOp(heavyOp(1, 2), heavyOp(3, 4))) = 3570`, and the left fold is
`9660`. -/
theorem MyParalelReduce_sequential_counterexample :
    MyParalelReduce [1, 2, 3, 4] 0 heavyOp 1 = .ok 3570 ∧
    heavyOp 0 (heavyOp (heavyOp 1 2) (heavyOp 3 4)) = 3570 ∧
    [1, 2, 3, 4].foldl heavyOp 0 = 9660 ∧
    MyParalelReduce [1, 2, 3, 4] 0 heavyOp 1 ≠ .ok ([1, 2, 3, 4].foldl heavyOp 0) := by
  have h : MyParalelReduce [1, 2, 3, 4] 0 heavyOp 1 = .ok 3570 := rfl
  refine ⟨h, by decide, by decide, ?_⟩
  rw [h]
  intro hc
  injection hc with hc
  exact absurd hc (by decide)

/-- C2, amended: with `threadsNumber == 1`, for every sequence, every initial
value and every associative combining operation, `MyParalelReduce` returns the
sequential left-to-right fold of the whole sequence from the initial value, and
creates no worker and no chunk. -/
theorem MyParalelReduce_sequential {α : Type} [Inhabited α] (xs : List α) (initialSum : α)
    (f : α → α → α) (hassoc : ∀ a b c, f (f a b) c = f a (f b c)) :
    MyParalelReduce xs initialSum f 1 = .ok (xs.foldl f initialSum) ∧
    MyParalelReduceRun xs initialSum f 1 =
      .ok { threads := [], threadsCreated := 0, sums := [],
            result := xs.foldl f initialSum } := by
  constructor
  · rw [MyParalelReduce_one, reduce_eq_foldl f hassoc]
  · simp [MyParalelReduceRun, reduce_eq_foldl f hassoc]

/-- C2, amended, for the addition on five elements. -/
theorem MyParalelReduce_sequential_witness :
    (∀ a b c : Int, f (f a b) c = f a (f b c)) ∧
    (MyParalelReduce [1, 2, 3, 4, 5] 0 f 1 = .ok ([1, 2, 3, 4, 5].foldl f 0) ∧
    MyParalelReduceRun [1, 2, 3, 4, 5] 0 f 1 =
      .ok { threads := [], threadsCreated := 0, sums := [],
            result := [1, 2, 3, 4, 5].foldl f 0 }) :=
  ⟨fun a b c => Int.add_assoc a b c,
   MyParalelReduce_sequential [1, 2, 3, 4, 5] 0 f (fun a b c => Int.add_assoc a b c)⟩

/-- C3: for the empty sequence and every `threadsNumber ≥ 1`, `MyParalelReduce`
returns the initial value; the call creates no worker (so no first element of a
chunk is read), `sums` ends empty, and the recorded computation is the leaf of
the initial value alone, without any application of the combining operation. -/
theorem MyParalelReduce_nil {α : Type} [Inhabited α] (initialSum : α) (f : α → α → α)
    (threadsNumber : Int) (hn : 1 ≤ threadsNumber) :
    MyParalelReduce [] initialSum f threadsNumber = .ok initialSum ∧
    (∃ r, MyParalelReduceRun [] initialSum f threadsNumber = .ok r ∧
      r.threads = [] ∧ r.threadsCreated = 0 ∧ r.sums = [] ∧ r.result = initialSum) ∧
    MyParalelReduce [] (OpTree.leaf initialSum) OpTree.node threadsNumber =
      .ok (OpTree.leaf initialSum) := by
  by_cases h1 : threadsNumber = 1
  · subst h1
    exact ⟨MyParalelReduce_one _ _ _, ⟨⟨[], 0, [], initialSum⟩, by simp [MyParalelReduceRun, reduce_nil],
      rfl, rfl, rfl, rfl⟩, MyParalelReduce_one _ _ _⟩
  · have h2 : 2 ≤ threadsNumber := by omega
    have hlen : ∀ {β : Type}, ([] : List β).length ≤ 2147483647 := by intro β; simp
    refine ⟨?_, ⟨_, run_eq [] initialSum f threadsNumber h2 hlen, ?_, ?_, ?_, ?_⟩, ?_⟩
    · simp [MyParalelReduce_eq _ _ _ threadsNumber h2 hlen, spansOf_nil, reduce_nil]
    · simp [spansOf_nil]
    · simp [spansOf_nil]
    · simp [spansOf_nil]
    · simp [spansOf_nil, reduce_nil]
    · simp [MyParalelReduce_eq _ _ _ threadsNumber h2 hlen, spansOf_nil, reduce_nil]

/-- C3 at `threadsNumber = 5`. -/
theorem MyParalelReduce_nil_witness :
    (1 : Int) ≤ 5 ∧
    (MyParalelReduce [] 7 heavyOp 5 = .ok 7 ∧
    (∃ r, MyParalelReduceRun [] 7 heavyOp 5 = .ok r ∧
      r.threads = [] ∧ r.threadsCreated = 0 ∧ r.sums = [] ∧ r.result = 7) ∧
    MyParalelReduce [] (OpTree.leaf (7 : Int)) OpTree.node 5 = .ok (OpTree.leaf 7)) :=
  ⟨by decide, MyParalelReduce_nil 7 heavyOp 5 (by decide)⟩

/-- C5 as stated fails for a sequence of more than `INT_MAX` elements: on
3300000000 elements with three workers the product `i * chunkSize` of line 41
overflows `int` at `i = 2`, and the call yields no chunks that concatenate to
the sequence. -/
theorem chunks_partition_counterexample :
    MyParalelReduceRun (List.replicate 3300000000 (0 : Int)) 0 f 3 =
      .error .signedOverflow ∧
    ¬ ∃ r, MyParalelReduceRun (List.replicate 3300000000 (0 : Int)) 0 f 3 = .ok r ∧
      (r.threads.map (chunkView (List.replicate 3300000000 (0 : Int)))).flatten =
        List.replicate 3300000000 (0 : Int) :=
  ⟨run_overflow _ _ _ (List.length_replicate 3300000000 0),
    no_run_of_error (run_overflow _ _ _ (List.length_replicate 3300000000 0)) _⟩

/-- C5, amended: for every sequence of at most `INT_MAX = 2147483647` elements
and every `threadsNumber ≥ 2` the call returns, and the chunks of the workers
it created, in order of creation, concatenate to the sequence; every chunk has
`0 ≤ chunkStart < chunkEnd ≤ L`, each chunk starts where the previous one ends,
the first starts at offset 0, an earlier chunk ends no later than a later one
starts, every index of the sequence is read by exactly one worker, and when the
sequence is not empty the last chunk created ends at the end of the
sequence. -/
theorem chunks_partition {α : Type} [Inhabited α] (xs : List α) (initialSum : α)
    (f : α → α → α) (N : Nat) (hN : 2 ≤ N) (hlen : xs.length ≤ 2147483647) :
    ∃ r, MyParalelReduceRun xs initialSum f (N : Int) = .ok r ∧
      (r.threads.map (chunkView xs)).flatten = xs ∧
      (∀ w ∈ r.threads, 0 ≤ w.chunkStart ∧ w.chunkStart < w.chunkEnd ∧
        w.chunkEnd ≤ xs.length) ∧
      List.Chain (fun a b : Worker => a.chunkEnd = b.chunkStart) ⟨0, 0, 0⟩ r.threads ∧
      r.threads.Pairwise (fun a b => a.chunkEnd ≤ b.chunkStart) ∧
      (∀ j, j < xs.length → r.threads.countP (fun w => w.covers j) = 1) ∧
      (1 ≤ xs.length → ∃ w, r.threads.getLast? = some w ∧ w.chunkEnd = xs.length) := by
  refine ⟨_, run_eq_nat xs initialSum f N hN hlen, ?_, ?_, ?_, ?_, ?_, ?_⟩
  · exact threads_flatten xs N (by omega)
  · intro w hw
    obtain ⟨_, _, h3, h4, h5⟩ := threads_bounds xs.length N w hw
    exact ⟨h3, h4, h5⟩
  · exact threads_chain xs.length N
  · exact threads_pairwise xs.length N
  · intro j hj
    exact threads_cover xs.length N (by omega) j hj
  · intro hpos
    exact threads_last xs.length N (by omega) hpos

/-- C5, amended, for a sequence of length 17 and 4 workers: the chunks are
`[0,4)`, `[4,8)`, `[8,12)`, `[12,17)`. -/
theorem chunks_partition_witness :
    2 ≤ 4 ∧ (List.range 17).length ≤ 2147483647 ∧
    (∃ r, MyParalelReduceRun (List.range 17) 0 (fun a b => a + b) ((4 : Nat) : Int) = .ok r ∧
      (r.threads.map (chunkView (List.range 17))).flatten = List.range 17 ∧
      (∀ w ∈ r.threads, 0 ≤ w.chunkStart ∧ w.chunkStart < w.chunkEnd ∧
        w.chunkEnd ≤ (List.range 17).length) ∧
      List.Chain (fun a b : Worker => a.chunkEnd = b.chunkStart) ⟨0, 0, 0⟩ r.threads ∧
      r.threads.Pairwise (fun a b => a.chunkEnd ≤ b.chunkStart) ∧
      (∀ j, j < (List.range 17).length → r.threads.countP (fun w => w.covers j) = 1) ∧
      (1 ≤ (List.range 17).length →
        ∃ w, r.threads.getLast? = some w ∧ w.chunkEnd = (List.range 17).length)) ∧
    (∃ r, MyParalelReduceRun (List.range 17) 0 (fun a b => a + b) ((4 : Nat) : Int) = .ok r ∧
      r.threads = [⟨0, 0, 4⟩, ⟨1, 4, 8⟩, ⟨2, 8, 12⟩, ⟨3, 12, 17⟩]) :=
  ⟨by decide, by decide,
    chunks_partition (List.range 17) 0 (fun a b => a + b) 4 (by decide) (by decide),
    ⟨_, rfl, by decide⟩⟩

/-- C6 as stated fails for a sequence of more than `INT_MAX` elements: on
3300000000 elements with three workers the product `i * chunkSize` of line 41
overflows `int` at `i = 2`, and the call returns with no count of workers. -/
theorem threadsCreated_eq_counterexample :
    MyParalelReduceRun (List.replicate 3300000000 (0 : Int)) 0 f 3 =
      .error .signedOverflow ∧
    ¬ ∃ r, MyParalelReduceRun (List.replicate 3300000000 (0 : Int)) 0 f 3 = .ok r ∧
      r.threadsCreated =
        min 3 ⌈((3300000000 : Nat) : ℚ) / ((max 1 (3300000000 / 3) : Nat) : ℚ)⌉₊ :=
  ⟨run_overflow _ _ _ (List.length_replicate 3300000000 0),
    no_run_of_error (run_overflow _ _ _ (List.length_replicate 3300000000 0)) _⟩

/-- C6, amended: for every sequence of length `L ≤ INT_MAX = 2147483647` and
every `threadsNumber = N ≥ 2` the call returns with
`threadsCreated = min (N, ⌈L / chunkSize⌉)`, where `chunkSize = max (1, L / N)`
with integer division and the ceiling is that of the exact quotient; that many
workers were created and `sums` is left with that many slots. -/
theorem threadsCreated_eq {α : Type} [Inhabited α] (xs : List α) (initialSum : α)
    (f : α → α → α) (N : Nat) (hN : 2 ≤ N) (hlen : xs.length ≤ 2147483647) :
    ∃ r, MyParalelReduceRun xs initialSum f (N : Int) = .ok r ∧
      r.threadsCreated =
        min N ⌈(xs.length : ℚ) / ((max 1 (xs.length / N) : Nat) : ℚ)⌉₊ ∧
      r.threads.length = r.threadsCreated ∧
      r.sums.length = r.threadsCreated := by
  refine ⟨_, run_eq_nat xs initialSum f N hN hlen, ?_, ?_, ?_⟩
  · show (spansOf xs.length N).length = _
    rw [spansOf_length, ← chunkSizeOf_eq_max,
      ceil_div_eq _ _ (chunkSize_facts xs.length N).1]
  · simp
  · simp

/-- C6, amended, for a sequence of length 2 and `threadsNumber = 10`: two
workers. -/
theorem threadsCreated_eq_witness :
    2 ≤ 10 ∧ ([5, 6] : List Int).length ≤ 2147483647 ∧
    (∃ r, MyParalelReduceRun [5, 6] 0 f ((10 : Nat) : Int) = .ok r ∧
      r.threadsCreated =
        min 10 ⌈(([5, 6] : List Int).length : ℚ) /
          ((max 1 (([5, 6] : List Int).length / 10) : Nat) : ℚ)⌉₊ ∧
      r.threads.length = r.threadsCreated ∧
      r.sums.length = r.threadsCreated) ∧
    (∃ r, MyParalelReduceRun [5, 6] 0 f ((10 : Nat) : Int) = .ok r ∧
      r.threadsCreated = 2 ∧ r.sums.length = 2) :=
  ⟨by decide, by decide, threadsCreated_eq [5, 6] 0 f 10 (by decide) (by decide),
    ⟨_, rfl, rfl, rfl⟩⟩

/-- C7: for a one-element sequence `[x]`, every initial value, every combining
operation and every `threadsNumber ≥ 1`, `MyParalelReduce` returns
`f initialSum x`; the recorded computation is the single application of the
operation to the initial value, on the left, and `x`. -/
theorem MyParalelReduce_singleton {α : Type} [Inhabited α] (x initialSum : α)
    (f : α → α → α) (threadsNumber : Int) (hn : 1 ≤ threadsNumber) :
    MyParalelReduce [x] initialSum f threadsNumber = .ok (f initialSum x) ∧
    MyParalelReduce [OpTree.leaf x] (OpTree.leaf initialSum) OpTree.node threadsNumber =
      .ok (OpTree.node (OpTree.leaf initialSum) (OpTree.leaf x)) ∧
    (OpTree.node (OpTree.leaf initialSum) (OpTree.leaf x)).applications = 1 := by
  have key : ∀ {β : Type} [Inhabited β] (y init : β) (g : β → β → β),
      MyParalelReduce [y] init g threadsNumber = .ok (g init y) := by
    intro β _ y init g
    by_cases h1 : threadsNumber = 1
    · subst h1
      rw [MyParalelReduce_one, reduce_singleton]
    · have h2 : 2 ≤ threadsNumber := by omega
      have h3 : 2 ≤ threadsNumber.toNat := by omega
      have hlen : [y].length ≤ 2147483647 := by simp
      simp [MyParalelReduce_eq _ _ _ threadsNumber h2 hlen, spansOf_one _ h3, spanView,
        chunkFold, reduce_nil, reduce_singleton]
  exact ⟨key x initialSum f, key _ _ _, rfl⟩

/-- C7 at `x = 4`, initial value `9`, `heavyOp` and 64 workers. -/
theorem MyParalelReduce_singleton_witness :
    (1 : Int) ≤ 64 ∧
    (MyParalelReduce [4] 9 heavyOp 64 = .ok (heavyOp 9 4) ∧
    MyParalelReduce [OpTree.leaf (4 : Int)] (OpTree.leaf 9) OpTree.node 64 =
      .ok (OpTree.node (OpTree.leaf 9) (OpTree.leaf 4)) ∧
    (OpTree.node (OpTree.leaf (9 : Int)) (OpTree.leaf 4)).applications = 1) :=
  ⟨by decide, MyParalelReduce_singleton 4 9 heavyOp 64 (by decide)⟩

/-- C8 as stated fails for a sequence of more than `INT_MAX` elements: on
3300000000 elements with three workers the offset `i * chunkSize` of the third
chunk, `2 * 1100000000`, is outside the range of `int` (line 41), so the call
does not return with chunks inside the sequence. -/
theorem chunks_in_range_counterexample :
    MyParalelReduceRun (List.replicate 3300000000 (0 : Int)) 0 f 3 =
      .error .signedOverflow ∧
    ¬ ∃ r, MyParalelReduceRun (List.replicate 3300000000 (0 : Int)) 0 f 3 = .ok r ∧
      ∀ w ∈ r.threads, 0 ≤ w.chunkStart ∧ w.chunkStart < w.chunkEnd ∧
        w.chunkEnd ≤ (3300000000 : Int) ∧ 0 ≤ w.slot ∧ w.slot < 3 :=
  ⟨run_overflow _ _ _ (List.length_replicate 3300000000 0),
    no_run_of_error (run_overflow _ _ _ (List.length_replicate 3300000000 0)) _⟩

/-- C8, amended: for every sequence of length `L ≤ INT_MAX = 2147483647` and
every `threadsNumber = N ≥ 2` the call returns, no product `i * chunkSize`
leaves the range of `int`, and every worker the call created has
`0 ≤ chunkStart < chunkEnd ≤ L`, writes a slot `0 ≤ i < N`, and its reduction
`reduce(next(chunkStart), chunkEnd, *chunkStart, f)` reads inside the sequence
only and yields a value. -/
theorem chunks_in_range {α : Type} [Inhabited α] (xs : List α) (initialSum : α)
    (f : α → α → α) (N : Nat) (hN : 2 ≤ N) (hlen : xs.length ≤ 2147483647) :
    ∃ r, MyParalelReduceRun xs initialSum f (N : Int) = .ok r ∧
      ∀ w ∈ r.threads, 0 ≤ w.chunkStart ∧ w.chunkStart < w.chunkEnd ∧
        w.chunkEnd ≤ xs.length ∧ 0 ≤ w.slot ∧ w.slot < N ∧
        ∃ v, chunkReduce xs f w = .ok v := by
  refine ⟨_, run_eq_nat xs initialSum f N hN hlen, ?_⟩
  intro w hw
  obtain ⟨h1, h2, h3, h4, h5⟩ := threads_bounds xs.length N w hw
  obtain ⟨s, hs, rfl⟩ := List.mem_map.mp hw
  obtain ⟨_, hs2, hs3⟩ := spansOf_bounds xs.length N s hs
  exact ⟨h3, h4, h5, h1, h2, _, chunkReduce_ok xs f s hs2 hs3⟩

/-- C8, amended, for three elements and two workers. -/
theorem chunks_in_range_witness :
    2 ≤ 2 ∧ ([1, 0, 0] : List Int).length ≤ 2147483647 ∧
    ∃ r, MyParalelReduceRun [1, 0, 0] 0 heavyOp ((2 : Nat) : Int) = .ok r ∧
      ∀ w ∈ r.threads, 0 ≤ w.chunkStart ∧ w.chunkStart < w.chunkEnd ∧
        w.chunkEnd ≤ ([1, 0, 0] : List Int).length ∧ 0 ≤ w.slot ∧ w.slot < (2 : Nat) ∧
        ∃ v, chunkReduce [1, 0, 0] heavyOp w = .ok v :=
  ⟨by decide, by decide, chunks_in_range [1, 0, 0] 0 heavyOp 2 (by decide) (by decide)⟩

/-- C9 as stated fails: `heavyOp` is not commutative, `heavyOp(1, 0) = 11` and
`heavyOp(0, 1) = 6`. -/
theorem heavyOp_comm_counterexample :
    heavyOp 1 0 = 11 ∧ heavyOp 0 1 = 6 ∧ heavyOp 1 0 ≠ heavyOp 0 1 := by
  decide

/-- C9, amended: the addition `f` is commutative on all integers; `heavyOp` is
`a + b` plus the sum over `i = 0..4` of `(a * i + b) % 1000000`, and it is not
commutative. -/
theorem f_comm_heavyOp_not_comm :
    (∀ a b : Int, f a b = f b a) ∧
    (∀ a b : Int, heavyOp a b = a + b +
      ((List.range 5).map (fun i : Nat => Int.tmod (a * i + b) 1000000)).sum) ∧
    ¬ (∀ a b : Int, heavyOp a b = heavyOp b a) := by
  refine ⟨fun a b => Int.add_comm a b, ?_, ?_⟩
  · intro a b
    rw [heavyOp_eq]
    simp [List.range_succ]
    ring
  · intro h
    exact absurd (h 1 0) (by decide)

/-- C10: `heavyOp` is not associative, and with `heavyOp` the value of
`MyParalelReduce` depends on `threadsNumber`: for `[1, 0, 0]` two workers hold
the partial results `1` and `0` and the call returns `66`, while the sequential
fold, which is the value for one worker, is `726`. -/
theorem heavyOp_not_invariant :
    ¬ (∀ a b c : Int, heavyOp (heavyOp a b) c = heavyOp a (heavyOp b c)) ∧
    (∃ r, MyParalelReduceRun [1, 0, 0] 0 heavyOp 2 = .ok r ∧
      r.sums = [1, 0] ∧ r.result = 66) ∧
    MyParalelReduce [1, 0, 0] 0 heavyOp 2 = .ok 66 ∧
    MyParalelReduce [1, 0, 0] 0 heavyOp 1 = .ok 726 ∧
    [1, 0, 0].foldl heavyOp 0 = 726 ∧
    (∃ (xs : List Int) (n : Int), 2 ≤ n ∧
      MyParalelReduce xs 0 heavyOp n ≠ .ok (xs.foldl heavyOp 0)) := by
  have hne : MyParalelReduce [1, 0, 0] 0 heavyOp 2 ≠ .ok ([1, 0, 0].foldl heavyOp 0) := by
    have h : MyParalelReduce [1, 0, 0] 0 heavyOp 2 = .ok 66 := rfl
    rw [h]
    intro hc
    injection hc with hc
    exact absurd hc (by decide)
  exact ⟨fun h => absurd (h 1 0 0) (by decide), ⟨_, rfl, by decide, by decide⟩, rfl, rfl,
    by decide, [1, 0, 0], 2, by decide, hne⟩

end ParallelReduce
